import Mathlib

/-!
Shallow embedding of the 1brc chunked-parsing pipeline (src/main.rs and
src/buffer.rs) and proofs about it.

Modelling conventions:
* bytes are `Nat` values (0..255), byte strings are `List Nat`;
* `f32` quantities are modelled as exact rationals `ℚ`; the `f32` infinities
  used as initial `min`/`max` accumulators are modelled by `WithTop ℚ` / `WithBot ℚ`;
* the `foldhash::HashMap` is modelled as an association list whose observable
  behaviour is `lookupRes` (hash maps are compared pointwise, never by entry order);
* Rust panics (slice out of bounds, `unwrap` of `None`, the process abort they
  cause) are modelled by `Option`: a `none` result means the program dies;
* readers (`File`, `Take`) are modelled as the list of bytes they will still
  deliver; a read takes `min free remaining` bytes from the front.
-/

namespace OneBRC

/-- The per-station aggregate `Result` struct of src/main.rs: running minimum,
sum, count and maximum of the measurements seen for one station.
`min`/`max` start at `f32::INFINITY` / `f32::NEG_INFINITY`, modelled by
`⊤ : WithTop ℚ` and `⊥ : WithBot ℚ`. -/
structure Result where
  min : WithTop ℚ
  sum : ℚ
  count : Nat
  max : WithBot ℚ
deriving DecidableEq

/-- `Result::default()` of src/main.rs: `min = ∞, sum = 0, count = 0, max = -∞`. -/
def Result.default : Result := ⟨⊤, 0, 0, ⊥⟩

/-- The aggregate table `type Results = HashMap<Vec<u8>, Result>` of src/main.rs,
modelled as an association list from station byte strings to aggregates. -/
abbrev Results := List (List Nat × Result)

/-- Hash-map lookup: the value stored for `key`, if any. -/
def lookupRes : Results → List Nat → Option Result
  | [], _ => none
  | (k, v) :: rest, key => if k = key then some v else lookupRes rest key

/-- Hash-map in-place mutation of the entry at `key` (first matching entry). -/
def updateEntry : Results → List Nat → Result → Results
  | [], _, _ => []
  | (k, v0) :: rest, key, v =>
      if k = key then (k, v) :: rest else (k, v0) :: updateEntry rest key v

/-- `byte - b'0'` of src/main.rs (`byte_ascii_digit`); u8 arithmetic wraps in
release builds, so this is subtraction of 48 modulo 2^8. -/
def byte_ascii_digit (byte : Nat) : Nat := (byte + 208) % 256

/-- The body of `parse_buffer`'s per-record update of src/main.rs:
`sum += m; count += 1; max = f32::max(m, max); min = f32::min(m, min)`. -/
def updRes (r : Result) (m : ℚ) : Result :=
  ⟨Min.min (m : WithTop ℚ) r.min, r.sum + m, r.count + 1, Max.max (m : WithBot ℚ) r.max⟩

/-- `results.get_mut(station)` or `results.entry(station.to_vec()).or_default()`
followed by the field updates, as in src/main.rs lines 218-228. -/
def addMeasurement (results : Results) (station : List Nat) (m : ℚ) : Results :=
  match lookupRes results station with
  | some r => updateEntry results station (updRes r m)
  | none => results ++ [(station, updRes Result.default m)]

/-- `parse_measurement` of src/main.rs. The slice `[..len - 2]` panics for
inputs of fewer than 2 bytes (usize underflow / slice out of range), modelled
by `none`. Otherwise, digits are accumulated least-significant-first with an
increasing power-of-ten multiplier, exactly as in the source. -/
def parse_measurement (measurement_bytes : List Nat) : Option ℚ :=
  if 2 ≤ measurement_bytes.length then
    let wb0 := measurement_bytes.take (measurement_bytes.length - 2)
    let p : Bool × List Nat :=
      match wb0 with
      | b :: rest => if b = 45 then (true, rest) else (false, wb0)
      | [] => (false, wb0)
    let negative := p.1
    let whole_bytes := p.2
    let fractional : ℚ := (byte_ascii_digit (measurement_bytes.getLastD 0) : ℚ)
    let whole : ℚ :=
      (whole_bytes.reverse.foldl
        (fun (acc : ℚ × ℚ) b => (acc.1 + (byte_ascii_digit b : ℚ) * acc.2, acc.2 * 10))
        (0, 1)).1
    let measurement := whole + fractional / 10
    some (if negative then measurement * (-1) else measurement)
  else none

/-- `parse_measurement` of src/main.rs at the `f32` representation level: an
`f32` is a sign bit plus a magnitude, and the final `measurement *= -1.0`
flips the sign bit, turning `0.0` into `-0.0` rather than collapsing it. The
magnitude (always the non-negative `whole + fractional/10`) is exact, as `ℚ`.
`parse_measurement` is the value-level image of this function (negative zero
collapses to `0`); see `parse_measurement_f32_value`. -/
def parse_measurement_f32 (measurement_bytes : List Nat) : Option (Bool × ℚ) :=
  if 2 ≤ measurement_bytes.length then
    let wb0 := measurement_bytes.take (measurement_bytes.length - 2)
    let p : Bool × List Nat :=
      match wb0 with
      | b :: rest => if b = 45 then (true, rest) else (false, wb0)
      | [] => (false, wb0)
    let negative := p.1
    let whole_bytes := p.2
    let fractional : ℚ := (byte_ascii_digit (measurement_bytes.getLastD 0) : ℚ)
    let whole : ℚ :=
      (whole_bytes.reverse.foldl
        (fun (acc : ℚ × ℚ) b => (acc.1 + (byte_ascii_digit b : ℚ) * acc.2, acc.2 * 10))
        (0, 1)).1
    let measurement := whole + fractional / 10
    some (negative, measurement)
  else none

/-- Scan for the first newline byte at or after position `j` of `buffer`,
walking the suffix `buffer.drop j`; returns the absolute index found. This is
the inner `while j < buffer.len()` newline scan of `parse_buffer` and the
skip-to-first-newline scan of `process_chunk` in src/main.rs. -/
def findNlAux : List Nat → Nat → Option Nat
  | [], _ => none
  | b :: rest, j => if b = 10 then some j else findNlAux rest (j + 1)

/-- First index `≥ j` holding a newline (byte 10) in `buffer`. -/
def findNl (buffer : List Nat) (j : Nat) : Option Nat :=
  findNlAux (buffer.drop j) j

/-- The outer record loop of `parse_buffer` (src/main.rs lines 200-244):
scan from `i` for a `;` (byte 59), then for the following newline; parse the
measurement in between, fold it into `results`, and remember in `consumed` the
offset just past the last complete record. `fuel` bounds the number of loop
iterations (each iteration advances `i`, so `buffer.length + 1` is always
enough); a `none` from `parse_measurement` (a Rust panic) aborts. -/
def parseOuter (fuel : Nat) (buffer : List Nat) (results : Results)
    (i station_start consumed : Nat) : Option (Nat × Results) :=
  match fuel with
  | 0 => none
  | fuel + 1 =>
    if h : i < buffer.length then
      if buffer.get ⟨i, h⟩ = 59 then
        match findNl buffer (i + 1) with
        | some j =>
          match parse_measurement ((buffer.take j).drop (i + 1)) with
          | some m =>
              parseOuter fuel buffer
                (addMeasurement results ((buffer.take i).drop station_start) m)
                (j + 1) (j + 1) (j + 1)
          | none => none
        | none => some (consumed, results)
      else parseOuter fuel buffer results (i + 1) station_start consumed
    else some (consumed, results)

/-- `parse_buffer(start_index, buffer, results)` of src/main.rs: parses
measurements line by line starting at `start_index`, returning the number of
bytes consumed (up to the end of the last complete record) and the updated
results table. -/
def parse_buffer (start_index : Nat) (buffer : List Nat) (results : Results) :
    Option (Nat × Results) :=
  parseOuter (buffer.length + 1) buffer results start_index start_index 0

/-- The `Buffer` struct of src/buffer.rs. The backing array `buf` is a
fixed-capacity `Box<[MaybeUninit<u8>]>`; no operation ever reads it beyond
`filled`, so the model stores only the meaningful region `buf[0..filled]` in
`data` (`filled = data.length`) together with the capacity. `init` is the
source's `initialized` high-water mark of ever-written bytes. -/
structure Buffer where
  cap : Nat
  data : List Nat
  pos : Nat
  init : Nat
deriving DecidableEq

/-- `Buffer::with_capacity` of src/buffer.rs: empty buffer, all cursors 0. -/
def Buffer.with_capacity (capacity : Nat) : Buffer := ⟨capacity, [], 0, 0⟩

/-- `Buffer::buffer` of src/buffer.rs: the unread slice `buf[pos..filled]`. -/
def Buffer.buffer (b : Buffer) : List Nat := b.data.drop b.pos

/-- `Buffer::consume` of src/buffer.rs: `pos = min(pos + amt, filled)`. -/
def Buffer.consume (b : Buffer) (amt : Nat) : Buffer :=
  { b with pos := Nat.min (b.pos + amt) b.data.length }

/-- `Buffer::read_more` of src/buffer.rs: read into `buf[filled..]` without
discarding contents. The reader (modelled as the list `src` of bytes it can
still deliver) fills `min (cap - filled) src.length` bytes. Returns the number
of bytes read, the new buffer, and the rest of the source, mirroring
`filled += n; initialized = max initialized (filled + n)`. -/
def Buffer.read_more (b : Buffer) (src : List Nat) : Nat × Buffer × List Nat :=
  let k := Nat.min (b.cap - b.data.length) src.length
  (k,
   { b with data := b.data ++ src.take k,
            init := Nat.max b.init (b.data.length + k) },
   src.drop k)

/-- `read_more` against a fallible reader: an I/O error from `read_buf` is
propagated by `?` before any buffer field is updated. -/
def read_more_e (b : Buffer) (src : Except String (List Nat)) :
    Except String (Nat × Buffer × List Nat) :=
  match src with
  | Except.error e => Except.error e
  | Except.ok s => Except.ok (Buffer.read_more b s)

/-- `Buffer::backshift` of src/buffer.rs: `copy_within(pos..filled, 0);
filled -= pos; pos = 0`. Bytes at and beyond the new `filled` are never read
again, so the model just keeps the unread region. -/
def Buffer.backshift (b : Buffer) : Buffer :=
  { b with data := b.data.drop b.pos, pos := 0 }

/-- `Buffer::fill_buf` of src/buffer.rs: if `pos ≥ filled`, refill the whole
buffer from the reader (up to capacity) and reset the cursors; otherwise
return the current unread slice unchanged. -/
def Buffer.fill_buf (b : Buffer) (src : List Nat) : List Nat × Buffer × List Nat :=
  if b.data.length ≤ b.pos then
    let k := Nat.min b.cap src.length
    let b2 : Buffer := ⟨b.cap, src.take k, 0, Nat.max b.init k⟩
    (Buffer.buffer b2, b2, src.drop k)
  else (Buffer.buffer b, b, src)

/-- A buffer operation, for stating invariants over arbitrary operation
sequences (read sources carried as data). -/
inductive BufOp where
  | consume (amt : Nat)
  | backshift
  | read_more (src : List Nat)
  | fill_buf (src : List Nat)

/-- Apply one operation to a buffer (dropping returned values). -/
def applyBufOp (b : Buffer) : BufOp → Buffer
  | BufOp.consume amt => Buffer.consume b amt
  | BufOp.backshift => Buffer.backshift b
  | BufOp.read_more src => (Buffer.read_more b src).2.1
  | BufOp.fill_buf src => (Buffer.fill_buf b src).2.1

/-- The structural invariant of the `Buffer` struct:
`0 ≤ pos ≤ filled ≤ initialized ≤ capacity` (with `filled = data.length`). -/
def BufferWF (b : Buffer) : Prop :=
  b.pos ≤ b.data.length ∧ b.data.length ≤ b.init ∧ b.init ≤ b.cap

/-- `chunk_indices(num_chunks, total_len)` of src/main.rs: `num_chunks` ranges
of size `total_len / num_chunks`, the last absorbing the remainder. -/
def chunk_indices (num_chunks total_len : Nat) : List (Nat × Nat) :=
  let chunk_size := total_len / num_chunks
  (List.range num_chunks).map fun i =>
    (i * chunk_size, if i = num_chunks - 1 then total_len else i * chunk_size + chunk_size)

/-- `ChunkProcessingResult` of src/main.rs: the leftover (unconsumed) bytes of
a chunk plus its parsed aggregate table. -/
structure ChunkProcessingResult where
  unconsumed : List Nat
  results : Results
deriving DecidableEq

/-- `ChunkProcessingResult::default()`. -/
def ChunkProcessingResult.default : ChunkProcessingResult := ⟨[], []⟩

/-- The per-key combination performed by `merge_chunk_results` (src/main.rs
lines 294-298) when folding entry `v` of table `b` into entry `r` of table `a`:
`sum += v.sum; count += v.count; max = f32::max(v.max, max); min = f32::min(v.min, min)`. -/
def combineRes (r v : Result) : Result :=
  ⟨Min.min v.min r.min, r.sum + v.sum, r.count + v.count, Max.max v.max r.max⟩

/-- One iteration of `merge_chunk_results`'s loop over `b.results`: get the
existing entry for `key` or insert a default one, then combine `v` into it. -/
def insertMerge (acc : Results) (key : List Nat) (v : Result) : Results :=
  match lookupRes acc key with
  | some r => updateEntry acc key (combineRes r v)
  | none => acc ++ [(key, combineRes Result.default v)]

/-- The aggregate-map portion of `merge_chunk_results`: fold every entry of
`b` into `a`. -/
def mergeResults (a b : Results) : Results :=
  b.foldl (fun acc kv => insertMerge acc kv.1 kv.2) a

/-- `merge_chunk_results` of src/main.rs: concatenate unconsumed fragments
(`a` first) and fold `b`'s aggregate entries into `a`'s table. -/
def merge_chunk_results (a b : ChunkProcessingResult) : ChunkProcessingResult :=
  ⟨a.unconsumed ++ b.unconsumed, mergeResults a.results b.results⟩

/-- The refill loop of `process_chunk` (src/main.rs lines 156-175): parse the
current unread bytes from offset `i`, mark them consumed, backshift, refill
from `src`; stop when the buffer is empty or a refill returns 0 bytes. `fuel`
bounds iterations (every continuing iteration removes at least one byte from
`src`, so `src.length + 1` is always enough). -/
def chunkLoop (fuel : Nat) (src : List Nat) (b : Buffer) (i : Nat)
    (results : Results) : Option (Buffer × Results) :=
  match fuel with
  | 0 => none
  | fuel + 1 =>
    if Buffer.buffer b = [] then some (b, results)
    else
      match parse_buffer i (Buffer.buffer b) results with
      | none => none
      | some (consumed, results2) =>
        let b2 := Buffer.backshift (Buffer.consume b consumed)
        let r := Buffer.read_more b2 src
        if r.1 = 0 then some (r.2.1, results2)
        else chunkLoop fuel r.2.2 r.2.1 0 results2

/-- `process_chunk(file_path, chunk_start, chunk_end)` of src/main.rs. The
bounded reader `File::take(chunk_end - chunk_start)` after the seek is the
byte list `(file.drop chunk_start).take (chunk_end - chunk_start)`; the
`BufReader` capacity is the default 8192. For a chunk not starting at 0, the
bytes up to and including the first newline of the first fill are copied into
the leading fragment; afterwards the refill loop runs and whatever is left
unread joins the trailing fragment. -/
def process_chunk (file : List Nat) (chunk_start chunk_end : Nat) :
    Option ChunkProcessingResult :=
  let src0 := (file.drop chunk_start).take (chunk_end - chunk_start)
  let f := Buffer.fill_buf (Buffer.with_capacity 8192) src0
  let bytes := f.1
  let skip : Nat × List Nat :=
    if chunk_start ≠ 0 then
      match findNl bytes 0 with
      | some idx => (idx + 1, bytes.take (idx + 1))
      | none => (bytes.length, [])
    else (0, [])
  match chunkLoop (f.2.2.length + 1) f.2.2 f.2.1 skip.1 [] with
  | none => none
  | some (bf, results) => some ⟨skip.2 ++ Buffer.buffer bf, results⟩

/-- The whole pipeline of `main` (src/main.rs lines 37-56): run
`process_chunk` for every planned range, fold the outcomes with
`merge_chunk_results` starting from the default, then run the final
reconciliation `parse_buffer` over the concatenated unconsumed bytes.
Returns the consumed count of the final pass (the value the
`debug_assert_eq!` compares with `unconsumed.len()`) together with the final
state. -/
def finalState (file : List Nat) (num_workers : Nat) :
    Option (Nat × ChunkProcessingResult) :=
  match (chunk_indices num_workers file.length).mapM
      (fun se => process_chunk file se.1 se.2) with
  | none => none
  | some rs =>
    let merged := rs.foldl merge_chunk_results ChunkProcessingResult.default
    match parse_buffer 0 merged.unconsumed merged.results with
    | none => none
    | some pr => some (pr.1, ⟨merged.unconsumed, pr.2⟩)

/-- Lexicographic byte order on station names: `a.0.cmp(&b.0)` on `Vec<u8>`
(shorter string first on equal prefixes). -/
def lexLe : List Nat → List Nat → Bool
  | [], _ => true
  | _ :: _, [] => false
  | a :: as, b :: bs => if a < b then true else if b < a then false else lexLe as bs

/-- Ordered insertion for the sort of the results vector. -/
def insertLex (kv : List Nat × Result) : Results → Results
  | [] => [kv]
  | kv2 :: rest => if lexLe kv.1 kv2.1 then kv :: kv2 :: rest else kv2 :: insertLex kv rest

/-- `results.sort_unstable_by(|a, b| a.0.cmp(&b.0))` of src/main.rs, modelled
as insertion sort by `lexLe` (observable behaviour: a sorted permutation). -/
def sortResults (rs : Results) : Results := rs.foldr insertLex []

/-- Decimal digits of `n`, least significant first; `fuel`-bounded division
loop (`n + 1` steps always suffice). -/
def natDigitsRev : Nat → Nat → List Nat
  | 0, _ => []
  | fuel + 1, n => if n = 0 then [] else n % 10 :: natDigitsRev fuel (n / 10)

/-- Decimal rendering of a natural number, most significant digit first
(`0` renders as `"0"`). -/
def natToDigits (n : Nat) : List Nat :=
  if n = 0 then [48] else ((natDigitsRev (n + 1) n).reverse).map (· + 48)

/-- Modelled from the spec: the `{value:.1}` fixed-point rendering with
exactly one fractional digit used by the output formatter of src/main.rs
(lines 85 and 100); the rendering algorithm itself lives in Rust's std, not
in src/. The value is scaled to tenths and rounded; for the values the claims
apply it to (exact multiples of 1/10) no rounding occurs, so the tie-breaking
mode is irrelevant. -/
def fmt1 (q : ℚ) : List Nat :=
  let t : ℤ := round (q * 10)
  (if t < 0 then [45] else []) ++ natToDigits (t.natAbs / 10) ++ [46, t.natAbs % 10 + 48]

/-- Modelled from the spec: the `{value:.1}` rendering at the `f32`
representation level — Rust prints the `-` from the sign bit (so `-0.0`
renders as `-0.0`) and the digits from the magnitude. Agrees with `fmt1` on
every value except negative zero, which `ℚ` cannot distinguish from zero. -/
def fmt1f (v : Bool × ℚ) : List Nat :=
  let t : ℤ := round (v.2 * 10)
  (if v.1 then [45] else []) ++ natToDigits (t.natAbs / 10) ++ [46, t.natAbs % 10 + 48]

/-- Rendering of the `min` field (`f32::INFINITY` prints as `inf`). -/
def fmtMinField (x : WithTop ℚ) : List Nat :=
  match x with
  | none => [105, 110, 102]
  | some q => fmt1 q

/-- Rendering of the `max` field (`f32::NEG_INFINITY` prints as `-inf`). -/
def fmtMaxField (x : WithBot ℚ) : List Nat :=
  match x with
  | none => [45, 105, 110, 102]
  | some q => fmt1 q

/-- One `station=min/avg/max` output group of src/main.rs lines 84-85 / 99-100
(without the separator): `avg = sum / count as f32` is derived here, never
stored. -/
def formatEntryCore (kv : List Nat × Result) : List Nat :=
  kv.1 ++ [61] ++ fmtMinField kv.2.min ++ [47] ++ fmt1 (kv.2.sum / (kv.2.count : ℚ))
    ++ [47] ++ fmtMaxField kv.2.max

/-- The output step of `main` (src/main.rs lines 60-101): sort entries by
station bytes, print `{`, every entry but the last followed by `", "`, and the
last followed by `}`. For an empty table `results[..results.len() - 1]`
underflows and `results.last().unwrap()` has nothing to return — a panic,
modelled by `none`. -/
def formatOutput (results : Results) : Option (List Nat) :=
  let sorted := sortResults results
  match sorted.getLast? with
  | none => none
  | some lastKv =>
      some ([123] ++ (sorted.dropLast.map fun kv => formatEntryCore kv ++ [44, 32]).flatten
        ++ (formatEntryCore lastKv ++ [125]))

/-- Spec-side: decimal value of a most-significant-first ASCII digit run, the
`whole = whole * 10 + digit` accumulation of spec §4.6. -/
def digitsVal (ds : List Nat) : Nat := ds.foldl (fun a b => a * 10 + (b - 48)) 0

/-- Spec-side: the byte string `-?<digits>.<digit>` built from an optional
sign, whole digits `ds` and fractional digit `d`. -/
def measurementStr (neg : Bool) (ds : List Nat) (d : Nat) : List Nat :=
  (if neg then [45] else []) ++ ds ++ [46, d]

/-- Proof-side: value of a least-significant-first digit-byte list, used to
characterise the power-of-ten accumulation loop of `parse_measurement`. -/
def valL : List Nat → ℚ
  | [] => 0
  | b :: rest => (byte_ascii_digit b : ℚ) + 10 * valL rest

/-- Spec-side: a results value is a faithful image of a `HashMap` when its
keys are distinct. -/
def NodupKeys (rs : Results) : Prop := (rs.map Prod.fst).Nodup

instance (rs : Results) : Decidable (NodupKeys rs) := by
  unfold NodupKeys; infer_instance

/-- Spec-side: the merge rule of spec §4.4 lifted to optional entries — keys
in both sides combine, keys in one side pass through. -/
def combineOpt : Option Result → Option Result → Option Result
  | some x, some y => some (combineRes x y)
  | some x, none => some x
  | none, some y => some y
  | none, none => none

/-- Concrete worker outcome fixtures for witnesses. -/
def cprA : ChunkProcessingResult :=
  ⟨[], [([97], ⟨((1:ℚ) : WithTop ℚ), 1, 1, ((1:ℚ) : WithBot ℚ)⟩)]⟩

def cprB : ChunkProcessingResult :=
  ⟨[], [([97], ⟨((2:ℚ) : WithTop ℚ), 2, 1, ((2:ℚ) : WithBot ℚ)⟩),
        ([98], ⟨((3:ℚ) : WithTop ℚ), 3, 1, ((3:ℚ) : WithBot ℚ)⟩)]⟩

def cprC : ChunkProcessingResult :=
  ⟨[], [([99], ⟨((4:ℚ) : WithTop ℚ), 4, 1, ((4:ℚ) : WithBot ℚ)⟩)]⟩

/-- The 12-byte input file `x;1.0\ny;2.0\n`. -/
def fileC1 : List Nat := [120, 59, 49, 46, 48, 10, 121, 59, 50, 46, 48, 10]

/-- The 7-byte input file `aa;1.0\n`. -/
def fileC2 : List Nat := [97, 97, 59, 49, 46, 48, 10]

example : parse_measurement [49, 46, 48] = some 1 := by with_unfolding_all decide
example : parse_measurement [45, 53, 46, 53] = some (-(11/2)) := by with_unfolding_all decide
example : parse_measurement [] = none := by decide
example : updRes Result.default 1 = ⟨((1:ℚ) : WithTop ℚ), 1, 1, ((1:ℚ) : WithBot ℚ)⟩ := by
  with_unfolding_all decide

theorem getElem?_drop_eq (l : List Nat) : ∀ (n j : Nat), (l.drop n)[j]? = l[n + j]? := by
  induction l with
  | nil => intro n j; simp
  | cons a l ih =>
      intro n j
      cases n with
      | zero => simp
      | succ n => simp [List.drop_succ_cons, Nat.succ_add, ih n j]

theorem bufferWF_with_capacity (c : Nat) : BufferWF (Buffer.with_capacity c) := by
  simp [BufferWF, Buffer.with_capacity]

theorem bufferWF_applyBufOp (b : Buffer) (op : BufOp) (h : BufferWF b) :
    BufferWF (applyBufOp b op) := by
  obtain ⟨h1, h2, h3⟩ := h
  cases op with
  | consume amt =>
      refine ⟨?_, h2, h3⟩
      simp only [applyBufOp, Buffer.consume, Nat.min_def]
      split_ifs <;> omega
  | backshift =>
      refine ⟨?_, ?_, h3⟩ <;> simp only [applyBufOp, Buffer.backshift, List.length_drop] <;> omega
  | read_more src =>
      refine ⟨?_, ?_, ?_⟩ <;>
        simp only [applyBufOp, Buffer.read_more, List.length_append, List.length_take,
          Nat.min_def, Nat.max_def] <;>
        split_ifs <;> omega
  | fill_buf src =>
      simp only [applyBufOp, Buffer.fill_buf]
      split
      · refine ⟨?_, ?_, ?_⟩ <;>
          simp only [List.length_take, Nat.min_def, Nat.max_def] <;> split_ifs <;> omega
      · exact ⟨h1, h2, h3⟩

theorem bufferWF_foldl (ops : List BufOp) (b : Buffer) (h : BufferWF b) :
    BufferWF (ops.foldl applyBufOp b) := by
  induction ops generalizing b with
  | nil => exact h
  | cons op rest ih => exact ih _ (bufferWF_applyBufOp b op h)

/-- C7: every buffer reachable from `with_capacity` by a sequence of
`consume`, `backshift`, `read_more` and `fill_buf` operations satisfies
`0 ≤ pos ≤ filled ≤ initialized ≤ capacity`, and the unread view returned by
`buffer()` is exactly the region `[pos, filled)` of the backing data. -/
theorem buffer_invariant_holds (c : Nat) (ops : List BufOp) :
    BufferWF (ops.foldl applyBufOp (Buffer.with_capacity c)) ∧
    ((ops.foldl applyBufOp (Buffer.with_capacity c)).buffer).length =
      (ops.foldl applyBufOp (Buffer.with_capacity c)).data.length -
        (ops.foldl applyBufOp (Buffer.with_capacity c)).pos ∧
    ∀ j, ((ops.foldl applyBufOp (Buffer.with_capacity c)).buffer)[j]? =
      (ops.foldl applyBufOp (Buffer.with_capacity c)).data[
        (ops.foldl applyBufOp (Buffer.with_capacity c)).pos + j]? := by
  refine ⟨bufferWF_foldl ops _ (bufferWF_with_capacity c), ?_, ?_⟩
  · simp [Buffer.buffer]
  · intro j
    exact getElem?_drop_eq _ _ _

/-- C8: `read_more` appends the newly read bytes strictly after the filled
region, leaves the unread region and `pos` unchanged, advances `filled` by
exactly the returned count (0 when the source has ended), and propagates an
I/O error unchanged, leaving the buffer untouched. -/
theorem read_more_frame (b : Buffer) (src : List Nat) (e : String)
    (h : b.pos ≤ b.data.length) :
    (Buffer.read_more b src).2.1.pos = b.pos ∧
    (Buffer.read_more b src).2.1.data = b.data ++ src.take (Buffer.read_more b src).1 ∧
    (Buffer.read_more b src).2.1.data.length = b.data.length + (Buffer.read_more b src).1 ∧
    (Buffer.read_more b src).2.1.buffer = b.buffer ++ src.take (Buffer.read_more b src).1 ∧
    (Buffer.read_more b src).2.2 = src.drop (Buffer.read_more b src).1 ∧
    (src = [] → (Buffer.read_more b src).1 = 0) ∧
    ((Buffer.read_more b src).1 = 0 → (Buffer.read_more b src).2.1.buffer = b.buffer) ∧
    read_more_e b (Except.error e) = Except.error e := by
  have hk : Nat.min (b.cap - b.data.length) src.length ≤ src.length := Nat.min_le_right _ _
  refine ⟨rfl, rfl, ?_, ?_, rfl, ?_, ?_, rfl⟩
  · simp only [Buffer.read_more, List.length_append, List.length_take]
    omega
  · simp only [Buffer.read_more, Buffer.buffer]
    rw [List.drop_append_of_le_length h]
  · intro hsrc; simp [Buffer.read_more, hsrc]
  · intro h0
    simp only [Buffer.read_more] at h0 ⊢
    simp [Buffer.buffer, h0]

/-- C4: `chunk_indices` yields exactly `num_chunks` ranges with
`start = i * chunk_size` and `end = (i+1) * chunk_size` except the last, which
ends at `total_len`; every byte position below `total_len` lies in exactly one
range (no byte double-counted or skipped). -/
theorem chunk_indices_tiling (N L : Nat) (h : 1 ≤ N) :
    (chunk_indices N L).length = N ∧
    (∀ i, i < N → (chunk_indices N L)[i]? =
        some (i * (L / N), if i = N - 1 then L else (i + 1) * (L / N))) ∧
    (∀ p, p < L → ∃! i, i < N ∧ i * (L / N) ≤ p ∧
        p < (if i = N - 1 then L else (i + 1) * (L / N))) := by
  refine ⟨by simp [chunk_indices], ?_, ?_⟩
  · intro i hi
    simp [chunk_indices, hi, Nat.succ_mul]
  · intro p hp
    by_cases hcs : L / N = 0
    · refine ⟨N - 1, ⟨by omega, by simp [hcs], by simp [hp]⟩, ?_⟩
      intro i hi
      rcases eq_or_ne i (N - 1) with rfl | hne
      · rfl
      · exfalso
        rw [if_neg hne] at hi
        simp [hcs] at hi
    · have hcs0 : 0 < L / N := Nat.pos_of_ne_zero hcs
      have hdm := Nat.div_add_mod p (L / N)
      have hmod : p % (L / N) < L / N := Nat.mod_lt p hcs0
      by_cases hq : p / (L / N) < N - 1
      · refine ⟨p / (L / N), ⟨by omega, Nat.div_mul_le_self p (L / N), ?_⟩, ?_⟩
        · rw [if_neg (by omega : ¬ p / (L / N) = N - 1)]
          calc p = L / N * (p / (L / N)) + p % (L / N) := hdm.symm
            _ < (p / (L / N) + 1) * (L / N) := by rw [Nat.add_mul, Nat.mul_comm]; omega
        · intro i hi
          rcases eq_or_ne i (N - 1) with rfl | hne
          · exfalso
            have : (N - 1) * (L / N) ≤ p := hi.2.1
            have : N - 1 ≤ p / (L / N) := (Nat.le_div_iff_mul_le hcs0).mpr this
            omega
          · rw [if_neg hne] at hi
            have hlt : p < i * (L / N) + L / N := by
              have h22 := hi.2.2
              rw [Nat.add_mul, Nat.one_mul] at h22
              exact h22
            exact (Nat.div_eq_of_lt_le hi.2.1 (by rw [Nat.succ_mul]; exact hlt)).symm
      · have hle : N - 1 ≤ p / (L / N) := by omega
        have hstart : (N - 1) * (L / N) ≤ p :=
          le_trans (Nat.mul_le_mul_right (L / N) hle) (Nat.div_mul_le_self p (L / N))
        refine ⟨N - 1, ⟨by omega, hstart, by simp [hp]⟩, ?_⟩
        intro i hi
        rcases eq_or_ne i (N - 1) with rfl | hne
        · rfl
        · exfalso
          rw [if_neg hne] at hi
          have h1 : i + 1 ≤ N - 1 := by omega
          have h2 : (i + 1) * (L / N) ≤ (N - 1) * (L / N) :=
            Nat.mul_le_mul_right (L / N) h1
          omega

theorem byte_ascii_digit_digit (b : Nat) (h1 : 48 ≤ b) (h2 : b ≤ 57) :
    byte_ascii_digit b = b - 48 := by
  unfold byte_ascii_digit; omega

theorem parse_foldl_eq (l : List Nat) : ∀ a p : ℚ,
    (l.foldl (fun (acc : ℚ × ℚ) b => (acc.1 + (byte_ascii_digit b : ℚ) * acc.2, acc.2 * 10))
        (a, p)).1 = a + p * valL l := by
  induction l with
  | nil => intro a p; simp [valL]
  | cons b rest ih =>
      intro a p
      simp only [List.foldl_cons, valL]
      rw [ih]
      ring

theorem valL_concat (l : List Nat) (b : Nat) :
    valL (l ++ [b]) = valL l + 10 ^ l.length * (byte_ascii_digit b : ℚ) := by
  induction l with
  | nil => simp [valL]
  | cons c rest ih =>
      simp only [List.cons_append, valL, List.append_eq, ih, List.length_cons]
      ring

theorem digitsVal_foldl (l : List Nat) : ∀ a : Nat,
    l.foldl (fun a b => a * 10 + (b - 48)) a = a * 10 ^ l.length + digitsVal l := by
  induction l with
  | nil => intro a; simp [digitsVal]
  | cons c rest ih =>
      intro a
      simp only [List.foldl_cons, digitsVal, List.length_cons]
      rw [ih, ih (0 * 10 + (c - 48))]
      ring

theorem digitsVal_cons (b : Nat) (rest : List Nat) :
    digitsVal (b :: rest) = (b - 48) * 10 ^ rest.length + digitsVal rest := by
  have h := digitsVal_foldl rest (0 * 10 + (b - 48))
  simpa [digitsVal] using h

theorem valL_reverse_digits (ds : List Nat) (h : ∀ b ∈ ds, 48 ≤ b ∧ b ≤ 57) :
    valL ds.reverse = (digitsVal ds : ℚ) := by
  induction ds with
  | nil => simp [valL, digitsVal]
  | cons b rest ih =>
      have hb := h b (List.mem_cons_self b rest)
      have hrest : ∀ x ∈ rest, 48 ≤ x ∧ x ≤ 57 := fun x hx => h x (List.mem_cons_of_mem b hx)
      rw [List.reverse_cons, valL_concat, ih hrest, List.length_reverse,
        byte_ascii_digit_digit b hb.1 hb.2, digitsVal_cons]
      push_cast
      ring

theorem getLastD_concat2 (l : List Nat) (x y a : Nat) : (l ++ [x, y]).getLastD a = y := by
  induction l generalizing a with
  | nil => rfl
  | cons b t ih => simp only [List.cons_append, List.getLastD_cons, ih]

theorem parse_measurement_eq (neg : Bool) (ds : List Nat) (d : Nat)
    (h2 : ∀ b ∈ ds, 48 ≤ b ∧ b ≤ 57) (h3 : 48 ≤ d) (h4 : d ≤ 57) :
    parse_measurement (measurementStr neg ds d) =
      some ((if neg then (-1 : ℚ) else 1) * ((digitsVal ds : ℚ) + ((d - 48 : Nat) : ℚ) / 10)) := by
  cases neg with
  | false =>
      have hmb : measurementStr false ds d = ds ++ [46, d] := by simp [measurementStr]
      have hlen : (ds ++ [46, d]).length = ds.length + 2 := by simp
      have htake : (ds ++ [46, d]).take ((ds ++ [46, d]).length - 2) = ds := by
        rw [hlen]
        simp
      have hlast : (ds ++ [46, d]).getLastD 0 = d := getLastD_concat2 ds 46 d 0
      rw [hmb]
      cases ds with
      | nil =>
          simp only [parse_measurement, List.nil_append] at *
          rw [if_pos (by simp)]
          simp only [htake, hlast, List.reverse_nil, List.foldl_nil,
            byte_ascii_digit_digit d h3 h4, digitsVal, List.foldl_nil]
          push_cast
          ring_nf
      | cons b rest =>
          have hb := h2 b (List.mem_cons_self b rest)
          have hb45 : ¬ b = 45 := by omega
          simp only [parse_measurement]
          rw [if_pos (by simp)]
          simp only [htake, hlast, if_neg hb45]
          rw [parse_foldl_eq, valL_reverse_digits (b :: rest) h2,
            byte_ascii_digit_digit d h3 h4]
          simp only [Bool.false_eq_true, if_false]
          ring_nf
  | true =>
      have hmb : measurementStr true ds d = 45 :: (ds ++ [46, d]) := by simp [measurementStr]
      have hlen : (45 :: (ds ++ [46, d])).length = ds.length + 3 := by simp
      have htake : (45 :: (ds ++ [46, d])).take ((45 :: (ds ++ [46, d])).length - 2) =
          45 :: ds := by
        rw [hlen]
        have : ds.length + 3 - 2 = ds.length + 1 := by omega
        rw [this, List.take_succ_cons]
        simp
      have hlast : (45 :: (ds ++ [46, d])).getLastD 0 = d := by
        rw [List.getLastD_cons]
        exact getLastD_concat2 ds 46 d 45
      rw [hmb]
      simp only [parse_measurement]
      rw [if_pos (by simp)]
      simp only [htake, hlast, reduceIte]
      rw [parse_foldl_eq, valL_reverse_digits ds h2, byte_ascii_digit_digit d h3 h4]
      ring_nf

theorem parse_measurement_f32_value (bs : List Nat) :
    (parse_measurement_f32 bs).map (fun v => if v.1 then v.2 * (-1) else v.2) =
      parse_measurement bs := by
  by_cases h : 2 ≤ bs.length <;> simp [parse_measurement, parse_measurement_f32, h]

theorem parse_measurement_f32_eq (neg : Bool) (ds : List Nat) (d : Nat)
    (h2 : ∀ b ∈ ds, 48 ≤ b ∧ b ≤ 57) (h3 : 48 ≤ d) (h4 : d ≤ 57) :
    parse_measurement_f32 (measurementStr neg ds d) =
      some (neg, (digitsVal ds : ℚ) + ((d - 48 : Nat) : ℚ) / 10) := by
  cases neg with
  | false =>
      have hmb : measurementStr false ds d = ds ++ [46, d] := by simp [measurementStr]
      have hlen : (ds ++ [46, d]).length = ds.length + 2 := by simp
      have htake : (ds ++ [46, d]).take ((ds ++ [46, d]).length - 2) = ds := by
        rw [hlen]
        simp
      have hlast : (ds ++ [46, d]).getLastD 0 = d := getLastD_concat2 ds 46 d 0
      rw [hmb]
      cases ds with
      | nil =>
          simp only [parse_measurement_f32, List.nil_append] at *
          rw [if_pos (by simp)]
          simp only [htake, hlast, List.reverse_nil, List.foldl_nil,
            byte_ascii_digit_digit d h3 h4, digitsVal, List.foldl_nil,
            Option.some.injEq, Prod.mk.injEq, true_and]
          push_cast
          ring_nf
      | cons b rest =>
          have hb := h2 b (List.mem_cons_self b rest)
          have hb45 : ¬ b = 45 := by omega
          simp only [parse_measurement_f32]
          rw [if_pos (by simp)]
          simp only [htake, hlast, if_neg hb45]
          rw [parse_foldl_eq, valL_reverse_digits (b :: rest) h2,
            byte_ascii_digit_digit d h3 h4]
          simp only [Option.some.injEq, Prod.mk.injEq, true_and]
          ring_nf
  | true =>
      have hmb : measurementStr true ds d = 45 :: (ds ++ [46, d]) := by simp [measurementStr]
      have hlen : (45 :: (ds ++ [46, d])).length = ds.length + 3 := by simp
      have htake : (45 :: (ds ++ [46, d])).take ((45 :: (ds ++ [46, d])).length - 2) =
          45 :: ds := by
        rw [hlen]
        have : ds.length + 3 - 2 = ds.length + 1 := by omega
        rw [this, List.take_succ_cons]
        simp
      have hlast : (45 :: (ds ++ [46, d])).getLastD 0 = d := by
        rw [List.getLastD_cons]
        exact getLastD_concat2 ds 46 d 45
      rw [hmb]
      simp only [parse_measurement_f32]
      rw [if_pos (by simp)]
      simp only [htake, hlast, reduceIte]
      rw [parse_foldl_eq, valL_reverse_digits ds h2, byte_ascii_digit_digit d h3 h4]
      simp only [Option.some.injEq, Prod.mk.injEq, true_and]
      ring_nf

/-- C5: for every byte string of the form `-?\d+\.\d`, `parse_measurement`
returns `sign * (whole + fractional/10)` where `whole` is the decimal value of
the whole-digit run, `fractional` the last digit, and `sign` is `-1` exactly
when the leading `-` is present. (`f32` arithmetic is modelled exactly, over `ℚ`.) -/
theorem parse_measurement_correct (neg : Bool) (ds : List Nat) (d : Nat)
    (_h1 : ds ≠ []) (h2 : ∀ b ∈ ds, 48 ≤ b ∧ b ≤ 57) (h3 : 48 ≤ d) (h4 : d ≤ 57) :
    parse_measurement (measurementStr neg ds d) =
      some ((if neg then (-1 : ℚ) else 1) * ((digitsVal ds : ℚ) + ((d - 48 : Nat) : ℚ) / 10)) :=
  parse_measurement_eq neg ds d h2 h3 h4

/-- C5 witness: `-12.3` parses to `-123/10`. -/
theorem parse_measurement_correct_witness :
    ([49, 50] : List Nat) ≠ [] ∧
    parse_measurement (measurementStr true [49, 50] 51) =
      some ((if true then (-1 : ℚ) else 1) *
        ((digitsVal [49, 50] : ℚ) + ((51 - 48 : Nat) : ℚ) / 10)) :=
  ⟨by decide,
   parse_measurement_correct true [49, 50] 51 (by decide)
     (by decide) (by decide) (by decide)⟩

/-- C6 counterexample: on the empty byte string the slice `[..len - 2]` of
`parse_measurement` panics (usize underflow), so no numeric value is
returned — the claim that every byte sequence yields a number is false. -/
theorem parse_measurement_empty_fails : parse_measurement [] = none := by decide

/-- C6 (amended): for every input byte sequence of length at least 2,
`parse_measurement` completes and returns a numeric value, with no validation
of the digit bytes; shorter inputs panic on the `[..len - 2]` slice. -/
theorem parse_measurement_total (bs : List Nat) (h : 2 ≤ bs.length) :
    (parse_measurement bs).isSome = true := by
  simp [parse_measurement, h]

/-- C6 witness: the malformed two-byte input `;;` still yields a value. -/
theorem parse_measurement_total_witness :
    2 ≤ ([59, 59] : List Nat).length ∧ (parse_measurement [59, 59]).isSome = true :=
  ⟨by decide, parse_measurement_total [59, 59] (by decide)⟩

theorem natToDigits_small (n : Nat) (h : n < 100) :
    natToDigits n = if n < 10 then [n + 48] else [n / 10 + 48, n % 10 + 48] := by
  have hall : ∀ m, m < 100 →
      natToDigits m = if m < 10 then [m + 48] else [m / 10 + 48, m % 10 + 48] := by decide
  exact hall n h

theorem natToDigits_canonical (ds : List Nat) (h2 : ∀ b ∈ ds, 48 ≤ b ∧ b ≤ 57)
    (hshape : ds.length = 1 ∨ (ds.length = 2 ∧ ds.head? ≠ some 48)) :
    natToDigits (digitsVal ds) = ds := by
  rcases hshape with h1 | ⟨h1, hh⟩
  · obtain ⟨b, rfl⟩ := List.length_eq_one.mp h1
    have hb := h2 b (by simp)
    have hw : digitsVal [b] = b - 48 := by simp [digitsVal]
    rw [hw, natToDigits_small _ (by omega), if_pos (by omega)]
    simp only [List.cons.injEq, and_true]
    omega
  · obtain ⟨b1, b2, rfl⟩ := List.length_eq_two.mp h1
    have hb1 := h2 b1 (by simp)
    have hb2 := h2 b2 (by simp)
    have hb148 : b1 ≠ 48 := by simpa using hh
    have hw : digitsVal [b1, b2] = (b1 - 48) * 10 + (b2 - 48) := by
      simp [digitsVal]
    rw [hw, natToDigits_small _ (by omega), if_neg (by omega)]
    simp only [List.cons.injEq, and_true]
    omega

/-- C9 counterexample: the string `00.5` is a fixed-point decimal string with
one fractional digit whose value lies in `-99.9..99.9`, yet parse-then-format
returns `0.5`, not the original string — the claim fails for non-canonical
spellings. -/
theorem parse_format_not_roundtrip :
    (parse_measurement [48, 48, 46, 53]).map fmt1 ≠ some [48, 48, 46, 53] := by
  with_unfolding_all decide

/-- C9 (amended): for every canonical fixed-point decimal string with exactly
one fractional digit and value in `-99.9..99.9` — whole part a single digit,
or two digits not starting with `0` — applying `parse_measurement` and then
formatting with one fractional digit reproduces the original string. Negative
zero `-0.0` is included: the source's `f32` keeps the sign bit that
`measurement *= -1.0` sets, and `{:.1}` prints it, so the claim is stated at
the sign-bit-faithful `f32` representation (`parse_measurement_f32`/`fmt1f`). -/
theorem parse_format_roundtrip (neg : Bool) (ds : List Nat) (d : Nat)
    (h2 : ∀ b ∈ ds, 48 ≤ b ∧ b ≤ 57) (h3 : 48 ≤ d) (h4 : d ≤ 57)
    (hshape : ds.length = 1 ∨ (ds.length = 2 ∧ ds.head? ≠ some 48)) :
    (parse_measurement_f32 (measurementStr neg ds d)).map fmt1f =
      some (measurementStr neg ds d) := by
  rw [parse_measurement_f32_eq neg ds d h2 h3 h4, Option.map_some']
  have hfr : d - 48 < 10 := by omega
  have hnd := natToDigits_canonical ds h2 hshape
  have hdiv : (10 * digitsVal ds + (d - 48)) / 10 = digitsVal ds := by omega
  have hmod : (10 * digitsVal ds + (d - 48)) % 10 + 48 = d := by omega
  have hround : round (((digitsVal ds : ℚ) + ((d - 48 : Nat) : ℚ) / 10) * 10) =
      ((10 * digitsVal ds + (d - 48) : ℕ) : ℤ) := by
    have h : ((digitsVal ds : ℚ) + ((d - 48 : Nat) : ℚ) / 10) * 10 =
        ((10 * digitsVal ds + (d - 48) : ℕ) : ℚ) := by
      push_cast
      ring
    rw [h, round_natCast]
  simp only [fmt1f, hround, Int.natAbs_ofNat, hdiv, hmod, hnd]
  simp [measurementStr]

theorem lookupRes_eq_none (rs : Results) (k : List Nat) :
    lookupRes rs k = none ↔ k ∉ rs.map Prod.fst := by
  induction rs with
  | nil => simp [lookupRes]
  | cons kv rest ih =>
      cases kv with
      | mk k0 v0 =>
          by_cases h : k0 = k
          · simp [lookupRes, h]
          · simp [lookupRes, h, ih, Ne.symm h]

theorem map_fst_updateEntry (rs : Results) (k : List Nat) (v : Result) :
    (updateEntry rs k v).map Prod.fst = rs.map Prod.fst := by
  induction rs with
  | nil => rfl
  | cons kv rest ih =>
      cases kv with
      | mk k0 v0 => by_cases h : k0 = k <;> simp [updateEntry, h, ih]

theorem lookupRes_updateEntry_self (rs : Results) (k : List Nat) (v r : Result)
    (h : lookupRes rs k = some r) : lookupRes (updateEntry rs k v) k = some v := by
  induction rs with
  | nil => simp [lookupRes] at h
  | cons kv rest ih =>
      cases kv with
      | mk k0 v0 =>
          by_cases hk : k0 = k
          · simp [updateEntry, lookupRes, hk]
          · simp only [lookupRes, if_neg hk] at h
            simp [updateEntry, lookupRes, hk, ih h]

theorem lookupRes_updateEntry_ne (rs : Results) (k x : List Nat) (v : Result)
    (h : k ≠ x) : lookupRes (updateEntry rs k v) x = lookupRes rs x := by
  induction rs with
  | nil => rfl
  | cons kv rest ih =>
      cases kv with
      | mk k0 v0 =>
          by_cases hk : k0 = k
          · subst hk
            simp [updateEntry, lookupRes, h]
          · by_cases hx : k0 = x <;> simp [updateEntry, lookupRes, hk, hx, ih, Ne.symm h]

theorem lookupRes_append (rs : Results) (kv : List Nat × Result) (x : List Nat) :
    lookupRes (rs ++ [kv]) x =
      match lookupRes rs x with
      | some r => some r
      | none => if kv.1 = x then some kv.2 else none := by
  induction rs with
  | nil =>
      cases kv with
      | mk k v => simp [lookupRes]
  | cons kv0 rest ih =>
      cases kv0 with
      | mk k0 v0 => by_cases h : k0 = x <;> simp [lookupRes, h, ih]

theorem combineRes_default (v : Result) : combineRes Result.default v = v := by
  cases v with
  | mk mn s c mx =>
      simp only [combineRes, Result.default, Result.mk.injEq]
      exact ⟨min_eq_left le_top, by ring, by omega, max_eq_left bot_le⟩

theorem combineOpt_none_right (x : Option Result) : combineOpt x none = x := by
  cases x <;> rfl

theorem lookupRes_insertMerge_self (a : Results) (k : List Nat) (v : Result) :
    lookupRes (insertMerge a k v) k = combineOpt (lookupRes a k) (some v) := by
  rcases hl : lookupRes a k with _ | r
  · simp only [insertMerge, hl, combineOpt]
    rw [lookupRes_append, hl]
    simp [combineRes_default]
  · simp only [insertMerge, hl, combineOpt]
    exact lookupRes_updateEntry_self a k _ r hl

theorem lookupRes_insertMerge_ne (a : Results) (k x : List Nat) (v : Result) (h : k ≠ x) :
    lookupRes (insertMerge a k v) x = lookupRes a x := by
  rcases hl : lookupRes a k with _ | r
  · simp only [insertMerge, hl]
    rw [lookupRes_append]
    rcases lookupRes a x with _ | r2 <;> simp [h]
  · simp only [insertMerge, hl]
    exact lookupRes_updateEntry_ne a k x _ h

theorem nodupKeys_insertMerge (a : Results) (k : List Nat) (v : Result) (h : NodupKeys a) :
    NodupKeys (insertMerge a k v) := by
  rcases hl : lookupRes a k with _ | r
  · have hk : k ∉ a.map Prod.fst := (lookupRes_eq_none a k).mp hl
    simp only [insertMerge, hl, NodupKeys, List.map_append, List.map_cons, List.map_nil]
    simp only [NodupKeys] at h
    simp [List.nodup_append, h]
    intro x hx
    exact hk (List.mem_map_of_mem Prod.fst hx)
  · simp only [insertMerge, hl, NodupKeys, map_fst_updateEntry]
    exact h

theorem lookupRes_mergeResults (b : Results) : ∀ (a : Results) (x : List Nat),
    NodupKeys b →
    lookupRes (mergeResults a b) x = combineOpt (lookupRes a x) (lookupRes b x) := by
  induction b with
  | nil =>
      intro a x _
      simp only [mergeResults, List.foldl_nil, lookupRes]
      exact (combineOpt_none_right _).symm
  | cons kv b2 ih =>
      intro a x hb
      cases kv with
      | mk k v =>
          have hb2 : NodupKeys b2 := by
            simp only [NodupKeys, List.map_cons, List.nodup_cons] at hb
            exact hb.2
          have hk : k ∉ b2.map Prod.fst := by
            simp only [NodupKeys, List.map_cons, List.nodup_cons] at hb
            exact hb.1
          have hstep : mergeResults a ((k, v) :: b2) = mergeResults (insertMerge a k v) b2 := by
            simp [mergeResults]
          rw [hstep, ih _ x hb2]
          by_cases hx : k = x
          · subst hx
            rw [(lookupRes_eq_none b2 k).mpr hk, lookupRes_insertMerge_self,
              combineOpt_none_right]
            have hck : lookupRes ((k, v) :: b2) k = some v := by simp [lookupRes]
            rw [hck]
          · rw [lookupRes_insertMerge_ne a k x v hx]
            have hck : lookupRes ((k, v) :: b2) x = lookupRes b2 x := by
              simp [lookupRes, hx]
            rw [hck]

theorem nodupKeys_mergeResults (b : Results) : ∀ a : Results, NodupKeys a →
    NodupKeys (mergeResults a b) := by
  induction b with
  | nil =>
      intro a h
      simpa [mergeResults] using h
  | cons kv b2 ih =>
      intro a h
      cases kv with
      | mk k v =>
          have hstep : mergeResults a ((k, v) :: b2) = mergeResults (insertMerge a k v) b2 := by
            simp [mergeResults]
          rw [hstep]
          exact ih _ (nodupKeys_insertMerge a k v h)

theorem combineRes_assoc (x y z : Result) :
    combineRes (combineRes x y) z = combineRes x (combineRes y z) := by
  simp only [combineRes, Result.mk.injEq]
  exact ⟨(min_assoc _ _ _).symm, by ring, by omega, (max_assoc _ _ _).symm⟩

theorem combineRes_comm (x y : Result) : combineRes x y = combineRes y x := by
  simp only [combineRes, Result.mk.injEq]
  exact ⟨min_comm _ _, by ring, by omega, max_comm _ _⟩

theorem combineOpt_assoc (x y z : Option Result) :
    combineOpt (combineOpt x y) z = combineOpt x (combineOpt y z) := by
  cases x <;> cases y <;> cases z <;> simp [combineOpt, combineRes_assoc]

theorem combineOpt_comm (x y : Option Result) : combineOpt x y = combineOpt y x := by
  cases x <;> cases y <;> simp [combineOpt, combineRes_comm]

/-- C3: `merge_chunk_results`, on the aggregate-map portion, combines keys
present in both sides by summing counts and sums and taking min of mins and
max of maxes, passes keys present in only one side through unchanged (no key
dropped, no record double-counted), and this map merge is associative and
commutative up to table equality (pointwise `lookupRes`). -/
theorem merge_chunk_results_algebra (A B C : ChunkProcessingResult)
    (hA : NodupKeys A.results) (hB : NodupKeys B.results) (hC : NodupKeys C.results) :
    (∀ k, lookupRes (merge_chunk_results A B).results k =
        combineOpt (lookupRes A.results k) (lookupRes B.results k)) ∧
    (∀ k, lookupRes (merge_chunk_results (merge_chunk_results A B) C).results k =
        lookupRes (merge_chunk_results A (merge_chunk_results B C)).results k) ∧
    (∀ k, lookupRes (merge_chunk_results A B).results k =
        lookupRes (merge_chunk_results B A).results k) := by
  have hres : ∀ X Y : ChunkProcessingResult,
      (merge_chunk_results X Y).results = mergeResults X.results Y.results :=
    fun X Y => rfl
  refine ⟨?_, ?_, ?_⟩
  · intro k
    rw [hres]
    exact lookupRes_mergeResults B.results A.results k hB
  · intro k
    rw [hres, hres, hres, hres,
      lookupRes_mergeResults C.results _ k hC,
      lookupRes_mergeResults B.results _ k hB,
      lookupRes_mergeResults _ A.results k (nodupKeys_mergeResults C.results B.results hB),
      lookupRes_mergeResults C.results B.results k hC,
      combineOpt_assoc]
  · intro k
    rw [hres, hres, lookupRes_mergeResults B.results A.results k hB,
      lookupRes_mergeResults A.results B.results k hA, combineOpt_comm]

/-- C3 witness: the merge algebra at three concrete worker outcomes. -/
theorem merge_chunk_results_algebra_witness :
    (NodupKeys cprA.results ∧ NodupKeys cprB.results ∧ NodupKeys cprC.results) ∧
    ((∀ k, lookupRes (merge_chunk_results cprA cprB).results k =
        combineOpt (lookupRes cprA.results k) (lookupRes cprB.results k)) ∧
    (∀ k, lookupRes (merge_chunk_results (merge_chunk_results cprA cprB) cprC).results k =
        lookupRes (merge_chunk_results cprA (merge_chunk_results cprB cprC)).results k) ∧
    (∀ k, lookupRes (merge_chunk_results cprA cprB).results k =
        lookupRes (merge_chunk_results cprB cprA).results k)) :=
  ⟨⟨by decide, by decide, by decide⟩,
   merge_chunk_results_algebra cprA cprB cprC (by decide) (by decide) (by decide)⟩

theorem mem_insertLex (kv x : List Nat × Result) (l : Results) :
    x ∈ insertLex kv l ↔ x = kv ∨ x ∈ l := by
  induction l with
  | nil => simp [insertLex]
  | cons kv2 rest ih =>
      simp only [insertLex]
      split
      · simp [List.mem_cons]
      · simp only [List.mem_cons, ih]
        tauto

theorem mem_sortResults (rs : Results) (x : List Nat × Result) :
    x ∈ sortResults rs ↔ x ∈ rs := by
  induction rs with
  | nil => simp [sortResults]
  | cons kv rest ih =>
      show x ∈ insertLex kv (sortResults rest) ↔ _
      rw [mem_insertLex, ih]
      simp [List.mem_cons]

theorem length_insertLex (kv : List Nat × Result) (l : Results) :
    (insertLex kv l).length = l.length + 1 := by
  induction l with
  | nil => rfl
  | cons kv2 rest ih =>
      simp only [insertLex]
      split <;> simp [ih]

theorem length_sortResults (rs : Results) : (sortResults rs).length = rs.length := by
  induction rs with
  | nil => rfl
  | cons kv rest ih =>
      show (insertLex kv (sortResults rest)).length = _
      rw [length_insertLex, ih, List.length_cons]

theorem flatten_map_decomp (f : (List Nat × Result) → List Nat) (l : Results)
    (kv : List Nat × Result) (h : kv ∈ l) :
    ∃ u v, (l.map f).flatten = u ++ f kv ++ v := by
  obtain ⟨s, t, rfl⟩ := List.append_of_mem h
  exact ⟨(s.map f).flatten, (t.map f).flatten, by simp⟩

theorem formatEntryCore_head (kv : List Nat × Result) :
    formatEntryCore kv = kv.1 ++ ([61] ++ fmtMinField kv.2.min ++ [47] ++
      fmt1 (kv.2.sum / (kv.2.count : ℚ)) ++ [47] ++ fmtMaxField kv.2.max) := by
  simp [formatEntryCore]

/-- C10: the output step fails on an empty aggregate table (the slice
`results[..results.len() - 1]` underflows and `results.last().unwrap()` has
nothing to return), so no empty `{}` summary is ever printed; for a non-empty
table it succeeds and the printed bytes contain every station key. -/
theorem formatOutput_nonempty (rs : Results) :
    formatOutput ([] : Results) = none ∧
    (rs ≠ [] → ∃ out, formatOutput rs = some out ∧
      ∀ kv ∈ rs, ∃ u v, out = u ++ kv.1 ++ v) := by
  refine ⟨rfl, ?_⟩
  intro hne
  have hs : sortResults rs ≠ [] := by
    intro h0
    apply hne
    have := length_sortResults rs
    rw [h0] at this
    exact List.length_eq_zero.mp this.symm
  have hlast := List.getLast?_eq_getLast (sortResults rs) hs
  refine ⟨[123] ++ ((sortResults rs).dropLast.map
      fun kv => formatEntryCore kv ++ [44, 32]).flatten ++
      (formatEntryCore ((sortResults rs).getLast hs) ++ [125]), ?_, ?_⟩
  · simp only [formatOutput, hlast]
  · intro kv hkv
    have hkvs : kv ∈ sortResults rs := (mem_sortResults rs kv).mpr hkv
    have hdecomp := List.dropLast_append_getLast hs
    rw [← hdecomp] at hkvs
    rcases List.mem_append.mp hkvs with hin | hlast2
    · obtain ⟨u, v, huv⟩ :=
        flatten_map_decomp (fun kv => formatEntryCore kv ++ [44, 32])
          (sortResults rs).dropLast kv hin
      refine ⟨[123] ++ u, ([61] ++ fmtMinField kv.2.min ++ [47] ++
        fmt1 (kv.2.sum / (kv.2.count : ℚ)) ++ [47] ++ fmtMaxField kv.2.max) ++ [44, 32] ++
        v ++ (formatEntryCore ((sortResults rs).getLast hs) ++ [125]), ?_⟩
      rw [huv, formatEntryCore_head kv]
      simp [List.append_assoc]
    · have hkveq : kv = (sortResults rs).getLast hs := by
        simpa using hlast2
      refine ⟨[123] ++ ((sortResults rs).dropLast.map
          fun kv => formatEntryCore kv ++ [44, 32]).flatten,
        ([61] ++ fmtMinField kv.2.min ++ [47] ++
          fmt1 (kv.2.sum / (kv.2.count : ℚ)) ++ [47] ++ fmtMaxField kv.2.max) ++ [125], ?_⟩
      rw [← hkveq, formatEntryCore_head kv]
      simp [List.append_assoc]

/-- C10 witness: a one-entry table formats successfully and prints its key. -/
theorem formatOutput_nonempty_witness :
    (cprA.results ≠ []) ∧ (∃ out, formatOutput cprA.results = some out ∧
      ∀ kv ∈ cprA.results, ∃ u v, out = u ++ kv.1 ++ v) :=
  ⟨by decide, (formatOutput_nonempty cprA.results).2 (by decide)⟩

/-- C1: evaluation of the pipeline at the failing input `x;1.0\ny;2.0\n` with
2 workers. The second chunk is exactly `y;2.0\n`, so its skip-to-newline
prefix is the whole chunk; `parse_buffer` then parses zero records, `consumed`
stays 0, and the prefix is emitted a second time as the trailing fragment.
Reconciliation therefore counts `y;2.0` twice (count 2, sum 4), while the
1-worker run counts it once — the aggregate tables differ, contradicting
chunk-count invariance. -/
theorem chunk_count_variance_bug :
    (finalState fileC1 2).map (fun s => lookupRes s.2.results [121]) =
      some (some ⟨((2:ℚ) : WithTop ℚ), 4, 2, ((2:ℚ) : WithBot ℚ)⟩) ∧
    (finalState fileC1 1).map (fun s => lookupRes s.2.results [121]) =
      some (some ⟨((2:ℚ) : WithTop ℚ), 2, 1, ((2:ℚ) : WithBot ℚ)⟩) ∧
    (finalState fileC1 2).map (fun s => lookupRes s.2.results [121]) ≠
      (finalState fileC1 1).map (fun s => lookupRes s.2.results [121]) := by
  with_unfolding_all decide

/-- C2: evaluation of the pipeline at the failing input `aa;1.0\n` with 3
workers. Chunk 3 is `.0\n`; its skip prefix (the whole chunk) is stored and
then re-emitted as the trailing fragment, so the concatenated leftovers are
`aa;1.0\n.0\n` — not a sequence of complete records — and the final
`parse_buffer` consumes only 7 of its 10 bytes: the checked invariant
`consumed == unconsumed.len()` fails on a well-formed input. -/
theorem reconciliation_consumption_bug :
    (finalState fileC2 3).map (fun s => (s.1, s.2.unconsumed)) =
      some (7, [97, 97, 59, 49, 46, 48, 10, 46, 48, 10]) ∧
    (7 : Nat) ≠ ([97, 97, 59, 49, 46, 48, 10, 46, 48, 10] : List Nat).length := by
  with_unfolding_all decide

/-- C4 witness: the plan for 3 workers over 7 bytes. -/
theorem chunk_indices_tiling_witness :
    1 ≤ 3 ∧
    ((chunk_indices 3 7).length = 3 ∧
    (∀ i, i < 3 → (chunk_indices 3 7)[i]? =
        some (i * (7 / 3), if i = 3 - 1 then 7 else (i + 1) * (7 / 3))) ∧
    (∀ p, p < 7 → ∃! i, i < 3 ∧ i * (7 / 3) ≤ p ∧
        p < (if i = 3 - 1 then 7 else (i + 1) * (7 / 3)))) :=
  ⟨by decide, chunk_indices_tiling 3 7 (by decide)⟩

/-- C8 witness: `read_more` on a buffer holding `[5]` with one unread byte and
a source that still delivers `[9]`. -/
theorem read_more_frame_witness :
    (⟨4, [5], 0, 1⟩ : Buffer).pos ≤ (⟨4, [5], 0, 1⟩ : Buffer).data.length ∧
    ((Buffer.read_more ⟨4, [5], 0, 1⟩ [9]).2.1.pos = (⟨4, [5], 0, 1⟩ : Buffer).pos ∧
    (Buffer.read_more ⟨4, [5], 0, 1⟩ [9]).2.1.data =
      (⟨4, [5], 0, 1⟩ : Buffer).data ++ [9].take (Buffer.read_more ⟨4, [5], 0, 1⟩ [9]).1 ∧
    (Buffer.read_more ⟨4, [5], 0, 1⟩ [9]).2.1.data.length =
      (⟨4, [5], 0, 1⟩ : Buffer).data.length + (Buffer.read_more ⟨4, [5], 0, 1⟩ [9]).1 ∧
    (Buffer.read_more ⟨4, [5], 0, 1⟩ [9]).2.1.buffer =
      (⟨4, [5], 0, 1⟩ : Buffer).buffer ++ [9].take (Buffer.read_more ⟨4, [5], 0, 1⟩ [9]).1 ∧
    (Buffer.read_more ⟨4, [5], 0, 1⟩ [9]).2.2 =
      [9].drop (Buffer.read_more ⟨4, [5], 0, 1⟩ [9]).1 ∧
    (([9] : List Nat) = [] → (Buffer.read_more ⟨4, [5], 0, 1⟩ [9]).1 = 0) ∧
    ((Buffer.read_more ⟨4, [5], 0, 1⟩ [9]).1 = 0 →
      (Buffer.read_more ⟨4, [5], 0, 1⟩ [9]).2.1.buffer = (⟨4, [5], 0, 1⟩ : Buffer).buffer) ∧
    read_more_e ⟨4, [5], 0, 1⟩ (Except.error "disk") = Except.error "disk") :=
  ⟨by decide, read_more_frame ⟨4, [5], 0, 1⟩ [9] "disk" (by decide)⟩

/-- C9 witness: the canonical string `-0.0` round-trips — the previously
contentious negative-zero case. -/
theorem parse_format_roundtrip_witness :
    (∀ b ∈ ([48] : List Nat), 48 ≤ b ∧ b ≤ 57) ∧ (48 : Nat) ≤ 48 ∧ (48 : Nat) ≤ 57 ∧
    (([48] : List Nat).length = 1 ∨
      (([48] : List Nat).length = 2 ∧ ([48] : List Nat).head? ≠ some 48)) ∧
    (parse_measurement_f32 (measurementStr true [48] 48)).map fmt1f =
      some (measurementStr true [48] 48) :=
  ⟨by decide, by decide, by decide, by decide,
   parse_format_roundtrip true [48] 48 (by decide) (by decide) (by decide) (by decide)⟩

end OneBRC
